import Mathlib

/-!
Shallow embedding of the fbnet-pytorch sources (`model.py`, `blocks.py`) and
proofs about them.  Floating-point tensor entries are modelled as exact
rationals; a tensor value is a `List ℚ` (one entry per scalar), a batched
matrix is a `List (List ℚ)`.  Python indexing `xs[i]` is modelled by
`List.get?` (out-of-range access raises `IndexError`, i.e. yields `none`).
-/

set_option autoImplicit false

namespace NAS

/-! ### MixedOp (`model.py`, lines 10-21)

`MixedOp.__init__` stores the candidate blocks, in order, in `self._ops`.
`MixedOp.forward(x, weights)` is `sum(w * op(x) for w, op in zip(weights, self._ops))`.
Python's `zip` truncates to the shorter of the two sequences and `sum`
starts from the integer `0` (and `0 + t` is `t` for a tensor `t`), so the
result is the weighted sum over the first `min (length weights) (length ops)`
candidates.  Candidate outputs all share one shape; that shape is the
carrier type `T` below, with tensor addition and scalar multiplication
given by the `AddCommMonoid`/`Module ℚ` structure. -/

def mixedOpForward {T : Type} [AddCommMonoid T] [Module ℚ T]
    (ops : List (T → T)) (x : T) (weights : List ℚ) : T :=
  ((weights.zip ops).map (fun p => p.1 • p.2 x)).foldl (· + ·) 0

/-- A one-hot weight vector of length `n` with the `1` at index `i`. -/
def oneHot (n i : ℕ) : List ℚ :=
  (List.range n).map (fun j => if j = i then 1 else 0)

lemma foldl_add_eq {T : Type} [AddCommMonoid T] :
    ∀ (l : List T) (a : T), l.foldl (· + ·) a = a + l.sum := by
  intro l
  induction l with
  | nil => intro a; simp
  | cons x xs ih => intro a; simp [ih, add_assoc]

/-- Core characterization of `MixedOp.forward`: it is the weighted sum over
the first `min (length weights) (length ops)` candidates (`zip` truncation). -/
lemma mixedOpForward_eq_sum {T : Type} [AddCommMonoid T] [Module ℚ T] :
    ∀ (w : List ℚ) (ops : List (T → T)) (x : T),
      mixedOpForward ops x w
        = ∑ i in Finset.range (min w.length ops.length),
            w.getD i 0 • (ops.getD i id) x := by
  intro w
  induction w with
  | nil => intro ops x; simp [mixedOpForward]
  | cons a w ih =>
    intro ops x
    cases ops with
    | nil => simp [mixedOpForward]
    | cons f ops =>
      have h := ih ops x
      have hsum : ((w.zip ops).map (fun p => p.1 • p.2 x)).sum
          = ∑ i in Finset.range (min w.length ops.length),
              w.getD i 0 • (ops.getD i id) x := by
        rw [← zero_add (List.sum _), ← foldl_add_eq]
        exact h
      simp only [mixedOpForward, List.zip_cons_cons, List.map_cons, List.foldl_cons]
      rw [foldl_add_eq, zero_add, hsum]
      rw [show (a :: w).length = w.length + 1 from rfl,
          show (f :: ops).length = ops.length + 1 from rfl,
          Nat.succ_min_succ, Finset.sum_range_succ']
      simp only [List.getD_cons_zero, List.getD_cons_succ]
      exact add_comm _ _

/-- C4: for a weight vector whose length equals the candidate count,
`MixedOp.forward` returns the elementwise weighted sum of the candidates'
outputs on the same input, and a one-hot weight vector with the `1` at
index `i` yields candidate `i`'s raw output (the output lives in the same
carrier `T` as a single candidate's output, i.e. shapes agree). -/
theorem mixedOp_forward_weighted_sum {T : Type} [AddCommMonoid T] [Module ℚ T]
    (ops : List (T → T)) (x : T) (w : List ℚ) (h : w.length = ops.length) :
    mixedOpForward ops x w
      = ∑ i in Finset.range ops.length, w.getD i 0 • (ops.getD i id) x
    ∧ ∀ i : ℕ, i < ops.length →
        mixedOpForward ops x (oneHot ops.length i) = (ops.getD i id) x := by
  constructor
  · rw [mixedOpForward_eq_sum, h, min_self]
  · intro i hi
    have hlen : (oneHot ops.length i).length = ops.length := by
      simp [oneHot]
    rw [mixedOpForward_eq_sum, hlen, min_self]
    have hterm : ∀ j ∈ Finset.range ops.length,
        (oneHot ops.length i).getD j 0 • (ops.getD j id) x
          = if j = i then (ops.getD i id) x else 0 := by
      intro j hj
      have hj' : j < ops.length := Finset.mem_range.mp hj
      have : (oneHot ops.length i).getD j 0 = if j = i then 1 else 0 := by
        simp only [oneHot, List.getD_eq_getD_get?, List.get?_map,
          List.get?_range hj', Option.map_some', Option.getD_some]
      rw [this]
      by_cases hji : j = i
      · simp [hji]
      · simp [hji]
    rw [Finset.sum_congr rfl hterm, Finset.sum_ite_eq' (Finset.range ops.length)]
    rw [if_pos (Finset.mem_range.mpr hi)]

/-- Witness for C4 at a concrete instance: two candidates on `ℚ`,
weights `[2, 5]`, input `3`. -/
theorem mixedOp_forward_weighted_sum_witness :
    mixedOpForward [fun y => y + 1, fun y => 2 * y] (3 : ℚ) [2, 5]
      = ∑ i in Finset.range 2,
          ([2, 5] : List ℚ).getD i 0
            • (([fun y => y + 1, fun y => 2 * y] : List (ℚ → ℚ)).getD i id) 3 :=
  (mixedOp_forward_weighted_sum [fun y => y + 1, fun y => 2 * y] 3 [2, 5] rfl).1

/-- C5 counterexample: a weight vector of length 1 against two candidates
does not fail; `zip` silently truncates and `MixedOp.forward` produces the
partial weighted sum (here `5 * (0 + 1) = 5`). -/
theorem mixedOp_forward_mismatch_returns_value :
    ([5] : List ℚ).length ≠ ([fun y => y + 1, fun y => y + 2] : List (ℚ → ℚ)).length
    ∧ mixedOpForward [fun y => y + 1, fun y => y + 2] (0 : ℚ) [5] = 5 := by
  constructor
  · decide
  · show (([(5 : ℚ)].zip [fun y => y + 1, fun y => y + 2]).map
        (fun p => p.1 • p.2 (0 : ℚ))).foldl (· + ·) 0 = 5
    norm_num

/-- C5 amended: for every weight vector, whatever its length,
`MixedOp.forward` returns the weighted sum truncated to the shorter of the
weight vector and the candidate list; no length check is performed and no
error is possible. -/
theorem mixedOp_forward_truncates {T : Type} [AddCommMonoid T] [Module ℚ T]
    (ops : List (T → T)) (x : T) (w : List ℚ) :
    mixedOpForward ops x w
      = ∑ i in Finset.range (min w.length ops.length),
          w.getD i 0 • (ops.getD i id) x :=
  mixedOpForward_eq_sum w ops x

/-! ### FBNetBlock (`blocks.py`, lines 23-55)

`FBNetBlock.__init__(C_in, C_out, kernel_size, stride, expansion, group, bn=False)`
asserts `not bn`, builds `self.op` as
`Conv2d(C_in, C_in*e, 1, stride=1, padding=0, groups=group, bias) ; ReLU ;
 Conv2d(C_in*e, C_in*e, 3, stride=stride, padding=1, groups=C_in*e, bias) ; ReLU ;
 Conv2d(C_in*e, C_out, 1, stride=1, padding=0, groups=group, bias)`,
sets `res_flag = (C_in == C_out and stride == 1)`, and when `res_flag` is
false builds `self.trans` (`Conv2d` with torch defaults `groups=1`,
`bias=True`) for stride 2 or 1, raising `ValueError` for any other stride.
The embedding records the constructed architecture as data; `none` stands
for a failed construction (assertion or `ValueError`). -/

structure ConvCfg where
  inC : ℕ
  outC : ℕ
  kernel : ℕ
  stride : ℕ
  padding : ℕ
  groups : ℕ
  bias : Bool
  deriving DecidableEq

inductive OpLayer where
  | conv : ConvCfg → OpLayer
  | relu : OpLayer
  deriving DecidableEq

structure FBNetBlockCfg where
  op : List OpLayer
  resFlag : Bool
  trans : Option ConvCfg
  deriving DecidableEq

def fbnetBlockInit (cIn cOut kernelSize stride expansion group : ℕ)
    (bn : Bool) : Option FBNetBlockCfg :=
  if bn then none  -- `assert not bn, "not support for now"`
  else
    let biasFlag := !bn
    let op : List OpLayer :=
      [OpLayer.conv ⟨cIn, cIn * expansion, 1, 1, 0, group, biasFlag⟩,
       OpLayer.relu,
       OpLayer.conv ⟨cIn * expansion, cIn * expansion, 3, stride, 1, cIn * expansion, biasFlag⟩,
       OpLayer.relu,
       OpLayer.conv ⟨cIn * expansion, cOut, 1, 1, 0, group, biasFlag⟩]
    if cIn = cOut ∧ stride = 1 then some ⟨op, true, none⟩
    else if stride = 2 then some ⟨op, false, some ⟨cIn, cOut, 3, 2, 1, 1, true⟩⟩
    else if stride = 1 then some ⟨op, false, some ⟨cIn, cOut, 1, 1, 0, 1, true⟩⟩
    else none  -- `raise ValueError("Wrong stride %d provided" % stride)`

/-- The kernel size of the block's depthwise convolution (the third entry of
`self.op`). -/
def FBNetBlockCfg.dwKernel (c : FBNetBlockCfg) : Option ℕ :=
  match c.op.get? 2 with
  | some (OpLayer.conv cc) => some cc.kernel
  | _ => none

/-- `FBNetBlock.forward` under an arbitrary interpretation of the
primitive layers: run `self.op`, then add `x` (residual) or `trans(x)`.
(The `none` trans branch is unreachable for configurations produced by
`fbnetBlockInit` with `resFlag = false`.) -/
def FBNetBlockCfg.run {T : Type} [Add T] (convSem : ConvCfg → T → T)
    (reluSem : T → T) (c : FBNetBlockCfg) (x : T) : T :=
  let opOut := c.op.foldl
    (fun d l => match l with
      | OpLayer.conv cc => convSem cc d
      | OpLayer.relu => reluSem d) x
  if c.resFlag then opOut + x
  else
    match c.trans with
    | some cc => opOut + convSem cc x
    | none => opOut + x

/-- C10: the `kernel_size` constructor argument of `FBNetBlock` is never
used: two blocks differing only in that argument have identical
configurations, hence compute the same function on every input under every
interpretation of the convolution/ReLU primitives; moreover the depthwise
convolution's kernel size is always the constant 3. -/
theorem fbnetBlock_kernel_size_unused :
    (∀ cIn cOut k1 k2 stride expansion group bn,
        fbnetBlockInit cIn cOut k1 stride expansion group bn
          = fbnetBlockInit cIn cOut k2 stride expansion group bn)
    ∧ (∀ (T : Type) (inst : Add T) (convSem : ConvCfg → T → T) (reluSem : T → T)
        (x : T) cIn cOut k1 k2 stride expansion group bn,
        (fbnetBlockInit cIn cOut k1 stride expansion group bn).map
            (fun c => FBNetBlockCfg.run convSem reluSem c x)
          = (fbnetBlockInit cIn cOut k2 stride expansion group bn).map
            (fun c => FBNetBlockCfg.run convSem reluSem c x))
    ∧ (∀ cIn cOut k stride expansion group bn c,
        fbnetBlockInit cIn cOut k stride expansion group bn = some c →
        c.dwKernel = some 3) := by
  refine ⟨fun _ _ _ _ _ _ _ _ => rfl, fun _ _ _ _ _ _ _ _ _ _ _ _ _ => rfl, ?_⟩
  intro cIn cOut k stride expansion group bn c hc
  unfold fbnetBlockInit at hc
  by_cases hbn : bn
  · simp [hbn] at hc
  · simp only [hbn, if_false, Bool.false_eq_true] at hc
    by_cases h1 : cIn = cOut ∧ stride = 1
    · rw [if_pos h1] at hc
      cases hc
      rfl
    · rw [if_neg h1] at hc
      by_cases h2 : stride = 2
      · rw [if_pos h2] at hc
        cases hc
        rfl
      · rw [if_neg h2] at hc
        by_cases h3 : stride = 1
        · rw [if_pos h3] at hc
          cases hc
          rfl
        · rw [if_neg h3] at hc
          cases hc

/-- The configuration `fbnetBlockInit 16 16 5 1 1 1 false` evaluates to
(second stage of the first searchable position of `get_blocks()`). -/
def demoBlockCfg : FBNetBlockCfg :=
  ⟨[OpLayer.conv ⟨16, 16, 1, 1, 0, 1, true⟩, OpLayer.relu,
    OpLayer.conv ⟨16, 16, 3, 1, 1, 16, true⟩, OpLayer.relu,
    OpLayer.conv ⟨16, 16, 1, 1, 0, 1, true⟩], true, none⟩

/-- Witness for C10 at concrete arguments: kernel sizes 5 and 3 give the
same block, and the depthwise kernel of the constructed block is 3. -/
theorem fbnetBlock_kernel_size_unused_witness :
    fbnetBlockInit 16 16 5 1 1 1 false = fbnetBlockInit 16 16 3 1 1 1 false
    ∧ demoBlockCfg.dwKernel = some 3 :=
  ⟨fbnetBlock_kernel_size_unused.1 16 16 5 3 1 1 1 false,
   fbnetBlock_kernel_size_unused.2.2 16 16 5 1 1 1 false demoBlockCfg (by decide)⟩

/-! ### Trainer.save_theta (`model.py`, lines 210-220)

For each theta vector `t`, the code appends `list(t)` to `res`, writes the
space-joined string of its entries followed by the two-character literal
`'/n'` (a slash and an `n` — not a newline), and finally returns `res`.
The numeric-to-string conversion is abstracted as a parameter `reprQ`. -/

def saveThetaFile (reprQ : ℚ → String) (thetas : List (List ℚ)) :
    String × List (List ℚ) :=
  (String.join (thetas.map
      (fun t => String.intercalate " " (t.map reprQ) ++ "/n")),
   thetas)

/-- Splitting a string at actual newline characters (the field separation
`str.split` performs when a file is read back line by line). -/
def splitLinesAux : List Char → List Char → List String
  | [], acc => [String.mk acc.reverse]
  | c :: cs, acc =>
    if c = '\x0a' then String.mk acc.reverse :: splitLinesAux cs []
    else splitLinesAux cs (c :: acc)

/-- Reading the written file back line by line: the physical lines are the
newline-separated chunks. -/
def fileLines (s : String) : List String :=
  splitLinesAux s.data []

/-- C9: `save_theta` terminates each vector with the literal two-character
string `/n` instead of a newline, so the whole file is one physical line:
reparsing it line by line yields 1 line for 2 in-memory theta vectors (the
returned in-memory list itself is correct). -/
theorem saveTheta_single_line_bug :
    (saveThetaFile toString [[1], [2]]).1 = "1/n2/n"
    ∧ (fileLines (saveThetaFile toString [[1], [2]]).1).length = 1
    ∧ ([[1], [2]] : List (List ℚ)).length = 2
    ∧ (saveThetaFile toString [[1], [2]]).2 = [[1], [2]] := by
  refine ⟨?_, ?_, rfl, rfl⟩ <;> decide

/-! ### FBNet construction (`model.py`, lines 23-55)

A catalog entry is either a plain module (the stem / head convolutions) or
a python list of candidate blocks; `FBNet.__init__` dispatches on
`isinstance(b, list)`.  For every list entry it creates one theta vector
`torch.ones((len(b),))` re-initialised to the constant `init_theta`, and
one `MixedOp(b)`; then it asserts `len(self.theta) == 22`.  The latency
file is read with `readlines`; its parsed rows (each line stripped, split
on spaces and converted with `float`) are passed in as `speed`.  The
classifier is `nn.Linear(1984, num_classes)`; only `numClasses` matters
for the claims below. -/

inductive Block (T : Type) where
  | mod : (T → T) → Block T
  | cands : List (T → T) → Block T

/-- The list-valued entries of a catalog, in order. -/
def listEntries {T : Type} (blocks : List (Block T)) : List (List (T → T)) :=
  blocks.filterMap (fun b =>
    match b with
    | Block.cands l => some l
    | Block.mod _ => none)

structure FBNet (T : Type) where
  numClasses : ℕ
  alpha : ℚ
  beta : ℚ
  theta : List (List ℚ)
  ops : List (List (T → T))
  blocks : List (Block T)
  speed : List (List ℚ)

/-- `FBNet.__init__`: `none` models the `AssertionError` when the number of
list-valued entries differs from 22. -/
def fbnetInit {T : Type} (numClasses : ℕ) (blocks : List (Block T))
    (initTheta : ℚ) (speed : List (List ℚ)) (alpha beta : ℚ) :
    Option (FBNet T) :=
  let thetas := (listEntries blocks).map
    (fun l => List.replicate l.length initTheta)
  if thetas.length = 22 then
    some ⟨numClasses, alpha, beta, thetas, listEntries blocks, blocks, speed⟩
  else none

/-- C6: `FBNet` construction fails exactly when the number of list-valued
entries differs from 22; when the count is exactly 22 it succeeds and
creates one constant-initialised theta vector (of that entry's length) and
one MixedOp wrapping that entry's candidate list, per list-valued entry, in
order. -/
theorem fbnetInit_requires_22 {T : Type} (numClasses : ℕ)
    (blocks : List (Block T)) (initTheta : ℚ) (speed : List (List ℚ))
    (alpha beta : ℚ) :
    ((listEntries blocks).length ≠ 22 →
      fbnetInit numClasses blocks initTheta speed alpha beta = none)
    ∧ ((listEntries blocks).length = 22 →
      fbnetInit numClasses blocks initTheta speed alpha beta
        = some ⟨numClasses, alpha, beta,
            (listEntries blocks).map (fun l => List.replicate l.length initTheta),
            listEntries blocks, blocks, speed⟩) := by
  constructor
  · intro h
    unfold fbnetInit
    rw [if_neg]
    simpa using h
  · intro h
    unfold fbnetInit
    rw [if_pos]
    simpa using h

/-! ### FBNet.forward (`model.py`, lines 57-91)

The loop starts with `theta_idx = 0` and, for each block after the stem,
tests `len(block) > 1`.  `len` raises `TypeError` on a plain module and the
`else` branch `block(data)` raises `TypeError` on a python list, so only
list entries with at least two candidates are processed.  At a searchable
position the code reads `self.theta[theta_idx]`, increments `theta_idx`,
replicates theta over the batch, draws a Gumbel-Softmax sample (modelled by
the oracle `gs`, indexed by the position number, standing for the random
draw), then reads `self._speed[theta_idx]` and `self._ops[theta_idx]`
using the already-incremented index.  The per-position latency term is
`weight * torch.tensor(speed).repeat(batch_size, 1).sum()`: the `.sum()`
applies to the repeated tensor, so the term is the weight matrix scaled by
`batch_size * sum(row)`.  `MixedOp` application on the batched weight
matrix is abstracted as `mixApply`.  After the loop, `torch.tensor(lat)`
on a list of non-scalar tensors raises `ValueError`, and `nn.avg_pool2d`
does not exist (`torch.nn` has no such attribute, raising
`AttributeError`), so the loss expression on line 86 is unreachable: a
forward call can only end in an exception, modelled as a `none` loss.
`FwdTrace` records, as ghost observations, which latency rows and which
MixedOp entries the pass consults. -/

structure FwdTrace where
  completed : ℕ
  rowAttempts : List ℕ
  rowsUsed : List (List ℚ)
  opAttempts : List ℕ
  deriving DecidableEq

structure FwdSt (T : Type) where
  thetaIdx : ℕ
  data : T
  lat : List (List (List ℚ))
  tr : FwdTrace

/-- One iteration of the `for l_idx in range(1, len(self._blocks))` loop.
`Except.error` carries the state at the raised exception. -/
def stepBlock {T : Type} (net : FBNet T)
    (gs : ℕ → List (List ℚ) → ℚ → List (List ℚ))
    (mixApply : List (T → T) → T → List (List ℚ) → T)
    (batchSize : ℕ) (temp : ℚ) (st : FwdSt T) (b : Block T) :
    Except (FwdSt T) (FwdSt T) :=
  match b with
  | Block.mod _ => Except.error st
    -- `len(block)` on a plain module raises `TypeError`
  | Block.cands l =>
    if 1 < l.length then
      match net.theta.get? st.thetaIdx with
      | none => Except.error st  -- `self.theta[theta_idx]` IndexError
      | some th =>
        let i := st.thetaIdx + 1  -- `theta_idx += 1`
        let weight := gs st.thetaIdx (List.replicate batchSize th) temp
        let st1 : FwdSt T :=
          { st with thetaIdx := i,
                    tr := { st.tr with rowAttempts := st.tr.rowAttempts ++ [i] } }
        match net.speed.get? i with
        | none => Except.error st1  -- `self._speed[theta_idx]` IndexError
        | some row =>
          let latTerm := weight.map
            (fun r => r.map (fun w => w * ((batchSize : ℚ) * row.sum)))
          let st2 : FwdSt T :=
            { st1 with lat := st1.lat ++ [latTerm],
                       tr := { st1.tr with
                                rowsUsed := st1.tr.rowsUsed ++ [row],
                                opAttempts := st1.tr.opAttempts ++ [i] } }
          match net.ops.get? i with
          | none => Except.error st2  -- `self._ops[theta_idx]` IndexError
          | some op =>
            Except.ok { st2 with data := mixApply op st2.data weight,
                                 tr := { st2.tr with
                                          completed := st2.tr.completed + 1 } }
    else Except.error st
    -- `data = block(data)` on a python list raises `TypeError`

def forwardAux {T : Type} (net : FBNet T)
    (gs : ℕ → List (List ℚ) → ℚ → List (List ℚ))
    (mixApply : List (T → T) → T → List (List ℚ) → T)
    (batchSize : ℕ) (temp : ℚ) :
    FwdSt T → List (Block T) → Except (FwdSt T) (FwdSt T)
  | st, [] => Except.ok st
  | st, b :: bs =>
    match stepBlock net gs mixApply batchSize temp st b with
    | Except.error e => Except.error e
    | Except.ok st2 => forwardAux net gs mixApply batchSize temp st2 bs

def emptyTrace : FwdTrace := ⟨0, [], [], []⟩

/-- `FBNet.forward(input, target, temperature)`.  `batchSize` stands for
`input.size()[0]`.  The returned loss is `none` in every case: for the
constructed (22-position) networks the loop raises an `IndexError` at the
last searchable position, and even a hypothetical loop exit would raise in
the post-loop code (see the section comment). -/
def fbnetForward {T : Type} (net : FBNet T)
    (gs : ℕ → List (List ℚ) → ℚ → List (List ℚ))
    (mixApply : List (T → T) → T → List (List ℚ) → T)
    (batchSize : ℕ) (input : T) (_target : List ℕ) (temp : ℚ) :
    Option ℚ × FwdTrace :=
  match net.blocks with
  | [] => (none, emptyTrace)  -- `self._blocks[0]` IndexError
  | b0 :: rest =>
    match b0 with
    | Block.mod f =>
      match forwardAux net gs mixApply batchSize temp
          ⟨0, f input, [], emptyTrace⟩ rest with
      | Except.error st => (none, st.tr)
      | Except.ok st => (none, st.tr)
        -- post-loop: `torch.tensor(lat)` on non-scalar tensors raises
        -- `ValueError`; `nn.avg_pool2d` raises `AttributeError`
    | Block.cands _ => (none, emptyTrace)
      -- `self._blocks[0](input)` on a python list raises `TypeError`

lemma listEntries_length_of_all_cands {T : Type} :
    ∀ (bs : List (Block T)),
      (∀ b ∈ bs, ∃ l, b = Block.cands l ∧ 1 < l.length) →
      (listEntries bs).length = bs.length := by
  intro bs
  induction bs with
  | nil => intro _; rfl
  | cons b bs ih =>
    intro h
    obtain ⟨l, rfl, _⟩ := h b (List.mem_cons_self b bs)
    have := ih (fun b hb => h b (List.mem_cons_of_mem _ hb))
    simp [listEntries] at this ⊢
    exact this

/-- A successful searchable step: position `st.thetaIdx` reads
`theta[thetaIdx]`, then uses the incremented index for both the latency row
and the MixedOp entry. -/
lemma stepBlock_cands_ok {T : Type} (net : FBNet T)
    (gs : ℕ → List (List ℚ) → ℚ → List (List ℚ))
    (mixApply : List (T → T) → T → List (List ℚ) → T)
    (batchSize : ℕ) (temp : ℚ) (st : FwdSt T) (l : List (T → T))
    (hl : 1 < l.length) (hθ : st.thetaIdx < net.theta.length)
    (hs : st.thetaIdx + 1 < net.speed.length)
    (ho : st.thetaIdx + 1 < net.ops.length) :
    ∃ d lat, stepBlock net gs mixApply batchSize temp st (Block.cands l)
      = Except.ok
        ⟨st.thetaIdx + 1, d, lat,
         ⟨st.tr.completed + 1,
          st.tr.rowAttempts ++ [st.thetaIdx + 1],
          st.tr.rowsUsed ++ [net.speed.getD (st.thetaIdx + 1) []],
          st.tr.opAttempts ++ [st.thetaIdx + 1]⟩⟩ := by
  have h1 : net.theta.get? st.thetaIdx
      = some (net.theta.get ⟨st.thetaIdx, hθ⟩) := List.get?_eq_get hθ
  have h2 : net.speed.get? (st.thetaIdx + 1)
      = some (net.speed.get ⟨st.thetaIdx + 1, hs⟩) := List.get?_eq_get hs
  have h3 : net.ops.get? (st.thetaIdx + 1)
      = some (net.ops.get ⟨st.thetaIdx + 1, ho⟩) := List.get?_eq_get ho
  have h4 : net.speed.getD (st.thetaIdx + 1) []
      = net.speed.get ⟨st.thetaIdx + 1, hs⟩ := by
    rw [List.getD_eq_getD_get?, h2]; rfl
  refine ⟨mixApply (net.ops.get ⟨st.thetaIdx + 1, ho⟩) st.data
      (gs st.thetaIdx (List.replicate batchSize (net.theta.get ⟨st.thetaIdx, hθ⟩)) temp),
    st.lat ++ [(gs st.thetaIdx (List.replicate batchSize (net.theta.get ⟨st.thetaIdx, hθ⟩)) temp).map
      (fun r => r.map (fun w => w * ((batchSize : ℚ) * (net.speed.get ⟨st.thetaIdx + 1, hs⟩).sum)))], ?_⟩
  simp only [stepBlock, if_pos hl, h1, h2, h3, h4]

/-- The failing searchable step: the latency row at the incremented index
still exists, but the MixedOp lookup at that index is out of range. -/
lemma stepBlock_cands_fail_ops {T : Type} (net : FBNet T)
    (gs : ℕ → List (List ℚ) → ℚ → List (List ℚ))
    (mixApply : List (T → T) → T → List (List ℚ) → T)
    (batchSize : ℕ) (temp : ℚ) (st : FwdSt T) (l : List (T → T))
    (hl : 1 < l.length) (hθ : st.thetaIdx < net.theta.length)
    (hs : st.thetaIdx + 1 < net.speed.length)
    (ho : net.ops.length ≤ st.thetaIdx + 1) :
    ∃ lat, stepBlock net gs mixApply batchSize temp st (Block.cands l)
      = Except.error
        ⟨st.thetaIdx + 1, st.data, lat,
         ⟨st.tr.completed,
          st.tr.rowAttempts ++ [st.thetaIdx + 1],
          st.tr.rowsUsed ++ [net.speed.getD (st.thetaIdx + 1) []],
          st.tr.opAttempts ++ [st.thetaIdx + 1]⟩⟩ := by
  have h1 : net.theta.get? st.thetaIdx
      = some (net.theta.get ⟨st.thetaIdx, hθ⟩) := List.get?_eq_get hθ
  have h2 : net.speed.get? (st.thetaIdx + 1)
      = some (net.speed.get ⟨st.thetaIdx + 1, hs⟩) := List.get?_eq_get hs
  have h3 : net.ops.get? (st.thetaIdx + 1) = none := by
    rw [List.get?_eq_none]
    exact ho
  have h4 : net.speed.getD (st.thetaIdx + 1) []
      = net.speed.get ⟨st.thetaIdx + 1, hs⟩ := by
    rw [List.getD_eq_getD_get?, h2]; rfl
  refine ⟨st.lat ++ [(gs st.thetaIdx (List.replicate batchSize (net.theta.get ⟨st.thetaIdx, hθ⟩)) temp).map
      (fun r => r.map (fun w => w * ((batchSize : ℚ) * (net.speed.get ⟨st.thetaIdx + 1, hs⟩).sum)))], ?_⟩
  simp only [stepBlock, if_pos hl, h1, h2, h3, h4]

/-- Running the loop over candidate-list blocks while all three indexed
lists are long enough: every position succeeds, and the ghost traces append
the index range starting at `thetaIdx + 1`. -/
lemma forwardAux_ok {T : Type} (net : FBNet T)
    (gs : ℕ → List (List ℚ) → ℚ → List (List ℚ))
    (mixApply : List (T → T) → T → List (List ℚ) → T)
    (batchSize : ℕ) (temp : ℚ) :
    ∀ (bs : List (Block T)) (st : FwdSt T),
      (∀ b ∈ bs, ∃ l, b = Block.cands l ∧ 1 < l.length) →
      st.thetaIdx + bs.length ≤ net.theta.length →
      st.thetaIdx + bs.length < net.speed.length →
      st.thetaIdx + bs.length < net.ops.length →
      ∃ d lat, forwardAux net gs mixApply batchSize temp st bs
        = Except.ok
          ⟨st.thetaIdx + bs.length, d, lat,
           ⟨st.tr.completed + bs.length,
            st.tr.rowAttempts ++ List.range' (st.thetaIdx + 1) bs.length,
            st.tr.rowsUsed ++ (List.range' (st.thetaIdx + 1) bs.length).map
              (fun i => net.speed.getD i []),
            st.tr.opAttempts ++ List.range' (st.thetaIdx + 1) bs.length⟩⟩ := by
  intro bs
  induction bs with
  | nil =>
    intro st _ _ _ _
    exact ⟨st.data, st.lat, by simp [forwardAux]⟩
  | cons b bs ih =>
    intro st hall hθ hs ho
    obtain ⟨l, rfl, hl⟩ := hall _ (List.mem_cons_self b bs)
    simp only [List.length_cons] at hθ hs ho ⊢
    have hθ1 : st.thetaIdx < net.theta.length := by omega
    have hs1 : st.thetaIdx + 1 < net.speed.length := by omega
    have ho1 : st.thetaIdx + 1 < net.ops.length := by omega
    obtain ⟨d1, lat1, hstep⟩ :=
      stepBlock_cands_ok net gs mixApply batchSize temp st l hl hθ1 hs1 ho1
    obtain ⟨d2, lat2, hrec⟩ := ih
      ⟨st.thetaIdx + 1, d1, lat1,
       ⟨st.tr.completed + 1,
        st.tr.rowAttempts ++ [st.thetaIdx + 1],
        st.tr.rowsUsed ++ [net.speed.getD (st.thetaIdx + 1) []],
        st.tr.opAttempts ++ [st.thetaIdx + 1]⟩⟩
      (fun b hb => hall b (List.mem_cons_of_mem _ hb))
      (by show st.thetaIdx + 1 + bs.length ≤ net.theta.length; omega)
      (by show st.thetaIdx + 1 + bs.length < net.speed.length; omega)
      (by show st.thetaIdx + 1 + bs.length < net.ops.length; omega)
    refine ⟨d2, lat2, ?_⟩
    simp only [forwardAux, hstep]
    rw [hrec]
    have e1 : st.thetaIdx + 1 + bs.length = st.thetaIdx + (bs.length + 1) := by
      omega
    have e2 : st.tr.completed + 1 + bs.length
        = st.tr.completed + (bs.length + 1) := by omega
    dsimp only
    rw [e1, e2, List.range'_succ]
    simp [List.append_assoc]

/-- Running the loop when the MixedOp list is exactly exhausted by the last
position: every earlier position succeeds, the last position reads its
latency row and then fails on the MixedOp lookup. -/
lemma forwardAux_fail {T : Type} (net : FBNet T)
    (gs : ℕ → List (List ℚ) → ℚ → List (List ℚ))
    (mixApply : List (T → T) → T → List (List ℚ) → T)
    (batchSize : ℕ) (temp : ℚ) :
    ∀ (bs : List (Block T)) (st : FwdSt T),
      (∀ b ∈ bs, ∃ l, b = Block.cands l ∧ 1 < l.length) →
      bs ≠ [] →
      st.thetaIdx + bs.length ≤ net.theta.length →
      st.thetaIdx + bs.length < net.speed.length →
      st.thetaIdx + bs.length = net.ops.length →
      ∃ e, forwardAux net gs mixApply batchSize temp st bs = Except.error e
        ∧ e.tr.completed = st.tr.completed + bs.length - 1
        ∧ e.tr.rowAttempts
            = st.tr.rowAttempts ++ List.range' (st.thetaIdx + 1) bs.length
        ∧ e.tr.rowsUsed
            = st.tr.rowsUsed ++ (List.range' (st.thetaIdx + 1) bs.length).map
                (fun i => net.speed.getD i [])
        ∧ e.tr.opAttempts
            = st.tr.opAttempts ++ List.range' (st.thetaIdx + 1) bs.length
        ∧ e.thetaIdx = net.ops.length := by
  intro bs
  induction bs with
  | nil => intro st _ hne; exact absurd rfl hne
  | cons b bs ih =>
    intro st hall _ hθ hs ho
    obtain ⟨l, rfl, hl⟩ := hall _ (List.mem_cons_self b bs)
    simp only [List.length_cons] at hθ hs ho ⊢
    cases bs with
    | nil =>
      simp only [List.length_nil] at hθ hs ho ⊢
      have hθ1 : st.thetaIdx < net.theta.length := by omega
      have hs1 : st.thetaIdx + 1 < net.speed.length := by omega
      have ho1 : net.ops.length ≤ st.thetaIdx + 1 := by omega
      obtain ⟨lat1, hstep⟩ :=
        stepBlock_cands_fail_ops net gs mixApply batchSize temp st l hl hθ1 hs1 ho1
      refine ⟨⟨st.thetaIdx + 1, st.data, lat1,
          ⟨st.tr.completed,
           st.tr.rowAttempts ++ [st.thetaIdx + 1],
           st.tr.rowsUsed ++ [net.speed.getD (st.thetaIdx + 1) []],
           st.tr.opAttempts ++ [st.thetaIdx + 1]⟩⟩, ?_, ?_, ?_, ?_, ?_, ?_⟩
      · simp only [forwardAux, hstep]
      · dsimp only; omega
      · dsimp only; rw [List.range'_succ]; simp
      · dsimp only; rw [List.range'_succ]; simp
      · dsimp only; rw [List.range'_succ]; simp
      · dsimp only; omega
    | cons b' bs' =>
      simp only [List.length_cons] at hθ hs ho ⊢
      have hθ1 : st.thetaIdx < net.theta.length := by omega
      have hs1 : st.thetaIdx + 1 < net.speed.length := by omega
      have ho1 : st.thetaIdx + 1 < net.ops.length := by omega
      obtain ⟨d1, lat1, hstep⟩ :=
        stepBlock_cands_ok net gs mixApply batchSize temp st l hl hθ1 hs1 ho1
      obtain ⟨e, heq, hc, hra, hru, hoa, hidx⟩ := ih
        ⟨st.thetaIdx + 1, d1, lat1,
         ⟨st.tr.completed + 1,
          st.tr.rowAttempts ++ [st.thetaIdx + 1],
          st.tr.rowsUsed ++ [net.speed.getD (st.thetaIdx + 1) []],
          st.tr.opAttempts ++ [st.thetaIdx + 1]⟩⟩
        (fun b hb => hall b (List.mem_cons_of_mem _ hb))
        (List.cons_ne_nil b' bs')
        (by show st.thetaIdx + 1 + (bs'.length + 1) ≤ net.theta.length; omega)
        (by show st.thetaIdx + 1 + (bs'.length + 1) < net.speed.length; omega)
        (by show st.thetaIdx + 1 + (bs'.length + 1) = net.ops.length; omega)
      refine ⟨e, ?_, ?_, ?_, ?_, ?_, hidx⟩
      · simp only [forwardAux, hstep]
        exact heq
      · rw [hc]; dsimp only; simp only [List.length_cons]; omega
      · rw [hra]; dsimp only
        simp [List.range'_succ, List.append_assoc]
      · rw [hru]; dsimp only
        simp [List.range'_succ, List.append_assoc]
      · rw [hoa]; dsimp only
        simp [List.range'_succ, List.append_assoc]

/-- Catalog tails made of plain modules (such as the head convolution that
`get_blocks()` appends after the 22 candidate lists, blocks.py line 80)
contribute no list entries. -/
lemma listEntries_eq_nil_of_all_mod {T : Type} :
    ∀ (bs : List (Block T)),
      (∀ b ∈ bs, ∃ g, b = Block.mod g) → listEntries bs = [] := by
  intro bs
  induction bs with
  | nil => intro _; rfl
  | cons b bs ih =>
    intro h
    obtain ⟨g, rfl⟩ := h b (List.mem_cons_self b bs)
    have := ih (fun b hb => h b (List.mem_cons_of_mem _ hb))
    simpa [listEntries] using this

/-- An exception raised inside the block loop propagates: once a prefix of
the blocks errors, any trailing blocks are never reached. -/
lemma forwardAux_error_append {T : Type} (net : FBNet T)
    (gs : ℕ → List (List ℚ) → ℚ → List (List ℚ))
    (mixApply : List (T → T) → T → List (List ℚ) → T)
    (batchSize : ℕ) (temp : ℚ) :
    ∀ (bs1 bs2 : List (Block T)) (st e : FwdSt T),
      forwardAux net gs mixApply batchSize temp st bs1 = Except.error e →
      forwardAux net gs mixApply batchSize temp st (bs1 ++ bs2)
        = Except.error e := by
  intro bs1
  induction bs1 with
  | nil =>
    intro bs2 st e h
    simp [forwardAux] at h
  | cons b bs1 ih =>
    intro bs2 st e h
    simp only [forwardAux, List.cons_append] at h ⊢
    cases hstep : stepBlock net gs mixApply batchSize temp st b with
    | error e2 =>
      rw [hstep] at h
      dsimp only at h ⊢
      exact h
    | ok st2 =>
      rw [hstep] at h
      dsimp only at h ⊢
      exact ih bs2 st2 e h

lemma range'_eq_map_add (n : ℕ) :
    ∀ s : ℕ, List.range' s n = (List.range n).map (fun i => i + s) := by
  induction n with
  | zero => intro s; simp
  | succ n ih =>
    intro s
    rw [List.range'_succ, List.range_succ_eq_map, List.map_cons, ih (s + 1),
      List.map_map]
    simp only [Nat.zero_add]
    congr 1
    apply List.map_congr_left
    intro i _
    simp [Nat.succ_eq_add_one]
    omega

/-- Inversion of a successful `FBNet` construction. -/
lemma fbnetInit_some_inv {T : Type} {numClasses : ℕ} {blocks : List (Block T)}
    {initTheta : ℚ} {speed : List (List ℚ)} {alpha beta : ℚ} {net : FBNet T}
    (h : fbnetInit numClasses blocks initTheta speed alpha beta = some net) :
    net.theta = (listEntries blocks).map (fun l => List.replicate l.length initTheta)
    ∧ net.ops = listEntries blocks
    ∧ net.blocks = blocks
    ∧ net.speed = speed
    ∧ (listEntries blocks).length = 22 := by
  simp only [fbnetInit] at h
  by_cases hc : ((listEntries blocks).map
      (fun l => List.replicate l.length initTheta)).length = 22
  · rw [if_pos hc] at h
    obtain rfl := (Option.some.inj h).symm
    refine ⟨rfl, rfl, rfl, rfl, ?_⟩
    simpa using hc
  · rw [if_neg hc] at h
    cases h

/-- C3: for every network built from a stem module, then candidate lists
(each with at least two candidates), then any number of trailing plain
modules — the shape of the `get_blocks()` catalog, whose head convolution
follows the 22 searchable positions — that passes the 22-position
assertion, and a latency table with at least 23 rows, every forward call
ends in an index-out-of-range error at the last searchable position and
never returns a loss: 21 of the 22 positions complete, the MixedOp lookups
use indices 1,...,22 (position `i` indexes entry `i+1`), and the final
lookup indexes entry 22 of the 22-element MixedOp list (the trailing
blocks are never reached). -/
theorem fbnet_forward_last_position_index_error {T : Type}
    (gs : ℕ → List (List ℚ) → ℚ → List (List ℚ))
    (mixApply : List (T → T) → T → List (List ℚ) → T)
    (batchSize : ℕ) (input : T) (target : List ℕ) (temp : ℚ)
    (numClasses : ℕ) (initTheta : ℚ) (speed : List (List ℚ)) (alpha beta : ℚ)
    (f : T → T) (front tail : List (Block T)) (net : FBNet T)
    (hfront : ∀ b ∈ front, ∃ l, b = Block.cands l ∧ 1 < l.length)
    (htail : ∀ b ∈ tail, ∃ g, b = Block.mod g)
    (hinit : fbnetInit numClasses (Block.mod f :: (front ++ tail)) initTheta
      speed alpha beta = some net)
    (hspeed : 23 ≤ speed.length) :
    (fbnetForward net gs mixApply batchSize input target temp).1 = none
    ∧ (fbnetForward net gs mixApply batchSize input target temp).2.completed = 21
    ∧ (fbnetForward net gs mixApply batchSize input target temp).2.opAttempts
        = (List.range 22).map (fun i => i + 1)
    ∧ net.ops.length = 22 := by
  obtain ⟨hθ, hops, hblocks, hspd, hlen⟩ := fbnetInit_some_inv hinit
  have htailnil : listEntries tail = [] := listEntries_eq_nil_of_all_mod tail htail
  have hle : listEntries (Block.mod f :: (front ++ tail)) = listEntries front := by
    have hsplit : listEntries (Block.mod f :: (front ++ tail))
        = listEntries front ++ listEntries tail := by
      simp [listEntries, List.filterMap_append]
    rw [hsplit, htailnil, List.append_nil]
  rw [hle] at hθ hops hlen
  have hrl : front.length = 22 := by
    rw [← listEntries_length_of_all_cands front hfront]
    exact hlen
  have hθlen : net.theta.length = 22 := by
    rw [hθ]
    simpa using hlen
  have hoplen : net.ops.length = 22 := by
    rw [hops]
    exact hlen
  obtain ⟨e, heq, hc, _hra, _hru, hoa, _⟩ :=
    forwardAux_fail net gs mixApply batchSize temp front ⟨0, f input, [], emptyTrace⟩
      hfront
      (by intro hnil; rw [hnil] at hrl; cases hrl)
      (by show 0 + front.length ≤ net.theta.length; omega)
      (by show 0 + front.length < net.speed.length; rw [hspd]; omega)
      (by show 0 + front.length = net.ops.length; omega)
  have heq2 : forwardAux net gs mixApply batchSize temp
      ⟨0, f input, [], emptyTrace⟩ (front ++ tail) = Except.error e :=
    forwardAux_error_append net gs mixApply batchSize temp front tail _ e heq
  have hfwd : fbnetForward net gs mixApply batchSize input target temp
      = (none, e.tr) := by
    simp only [fbnetForward, hblocks, heq2]
  rw [hfwd]
  refine ⟨rfl, ?_, ?_, hoplen⟩
  · rw [hc]
    show emptyTrace.completed + front.length - 1 = 21
    simp [emptyTrace, hrl]
  · rw [hoa]
    show emptyTrace.opAttempts ++ List.range' (0 + 1) front.length
        = (List.range 22).map (fun i => i + 1)
    simp only [emptyTrace, List.nil_append, Nat.zero_add, hrl]
    exact range'_eq_map_add 22 1

/-- C2 amended: in every forward pass — over a constructed network of the
catalog's shape (stem module, then the candidate lists, then any trailing
plain modules such as the head convolution), with a table of at least 23
rows — the latency row used at the `i`-th searchable position
(`i = 0, 1, ...`) is row `i + 1` of the loaded table; the row indices
consulted are exactly `1,...,22` and row 0 is never read. -/
theorem fbnet_latency_rows_shifted {T : Type}
    (gs : ℕ → List (List ℚ) → ℚ → List (List ℚ))
    (mixApply : List (T → T) → T → List (List ℚ) → T)
    (batchSize : ℕ) (input : T) (target : List ℕ) (temp : ℚ)
    (numClasses : ℕ) (initTheta : ℚ) (speed : List (List ℚ)) (alpha beta : ℚ)
    (f : T → T) (front tail : List (Block T)) (net : FBNet T)
    (hfront : ∀ b ∈ front, ∃ l, b = Block.cands l ∧ 1 < l.length)
    (htail : ∀ b ∈ tail, ∃ g, b = Block.mod g)
    (hinit : fbnetInit numClasses (Block.mod f :: (front ++ tail)) initTheta
      speed alpha beta = some net)
    (hspeed : 23 ≤ speed.length) :
    (fbnetForward net gs mixApply batchSize input target temp).2.rowsUsed
        = (List.range 22).map (fun i => speed.getD (i + 1) [])
    ∧ (fbnetForward net gs mixApply batchSize input target temp).2.rowAttempts
        = (List.range 22).map (fun i => i + 1)
    ∧ 0 ∉ (fbnetForward net gs mixApply batchSize input target temp).2.rowAttempts := by
  obtain ⟨hθ, hops, hblocks, hspd, hlen⟩ := fbnetInit_some_inv hinit
  have htailnil : listEntries tail = [] := listEntries_eq_nil_of_all_mod tail htail
  have hle : listEntries (Block.mod f :: (front ++ tail)) = listEntries front := by
    have hsplit : listEntries (Block.mod f :: (front ++ tail))
        = listEntries front ++ listEntries tail := by
      simp [listEntries, List.filterMap_append]
    rw [hsplit, htailnil, List.append_nil]
  rw [hle] at hθ hops hlen
  have hrl : front.length = 22 := by
    rw [← listEntries_length_of_all_cands front hfront]
    exact hlen
  have hθlen : net.theta.length = 22 := by
    rw [hθ]
    simpa using hlen
  have hoplen : net.ops.length = 22 := by
    rw [hops]
    exact hlen
  obtain ⟨e, heq, _hc, hra, hru, _hoa, _⟩ :=
    forwardAux_fail net gs mixApply batchSize temp front ⟨0, f input, [], emptyTrace⟩
      hfront
      (by intro hnil; rw [hnil] at hrl; cases hrl)
      (by show 0 + front.length ≤ net.theta.length; omega)
      (by show 0 + front.length < net.speed.length; rw [hspd]; omega)
      (by show 0 + front.length = net.ops.length; omega)
  have heq2 : forwardAux net gs mixApply batchSize temp
      ⟨0, f input, [], emptyTrace⟩ (front ++ tail) = Except.error e :=
    forwardAux_error_append net gs mixApply batchSize temp front tail _ e heq
  have hfwd : fbnetForward net gs mixApply batchSize input target temp
      = (none, e.tr) := by
    simp only [fbnetForward, hblocks, heq2]
  rw [hfwd]
  have hattempts : e.tr.rowAttempts = (List.range 22).map (fun i => i + 1) := by
    rw [hra]
    show emptyTrace.rowAttempts ++ List.range' (0 + 1) front.length
        = (List.range 22).map (fun i => i + 1)
    simp only [emptyTrace, List.nil_append, Nat.zero_add, hrl]
    exact range'_eq_map_add 22 1
  refine ⟨?_, hattempts, ?_⟩
  · rw [hru]
    show emptyTrace.rowsUsed ++ (List.range' (0 + 1) front.length).map
          (fun i => net.speed.getD i [])
        = (List.range 22).map (fun i => speed.getD (i + 1) [])
    simp only [emptyTrace, List.nil_append, Nat.zero_add, hrl, hspd,
      range'_eq_map_add 22 1, List.map_map]
    rfl
  · rw [hattempts]
    intro hmem
    obtain ⟨i, _, hi⟩ := List.mem_map.mp hmem
    omega

/-! ### Concrete demonstration networks

A stem followed by 22 two-candidate searchable positions over the carrier
`ℕ`, with 23-row latency tables (`demoSpeed2` has pairwise distinct rows
`[0], [1], ..., [22]`).  `gs0` is a concrete stand-in for the random
Gumbel-Softmax draw and `mix0` for the batched MixedOp application. -/

def demoCands : Block ℕ := Block.cands [fun x => x + 1, fun x => x]

def demoBlocks : List (Block ℕ) := Block.mod id :: List.replicate 22 demoCands

def demoSpeed : List (List ℚ) := List.replicate 23 [1, 2]

def demoSpeed2 : List (List ℚ) :=
  List.map (fun i : ℕ => ([(i : ℚ)] : List ℚ)) (List.range 23)

def gs0 : ℕ → List (List ℚ) → ℚ → List (List ℚ) := fun _ m _ => m

def mix0 : List (ℕ → ℕ) → ℕ → List (List ℚ) → ℕ := fun _ d _ => d

def emptyNet : FBNet ℕ := ⟨0, 0, 0, [], [], [], []⟩

def net0 : FBNet ℕ := (fbnetInit 10 demoBlocks 1 demoSpeed (1/5) (3/5)).getD emptyNet

def net2 : FBNet ℕ := (fbnetInit 10 demoBlocks 1 demoSpeed2 (1/5) (3/5)).getD emptyNet

/-- A trailing fixed head transform, mirroring the head convolution that
`get_blocks()` appends after the searchable positions. -/
def demoHead : Block ℕ := Block.mod (fun x => x * 2)

/-- A catalog of the exact `get_blocks()` shape: stem module, 22 candidate
lists, trailing head module. -/
def demoBlocksH : List (Block ℕ) :=
  Block.mod id :: (List.replicate 22 demoCands ++ [demoHead])

def netH : FBNet ℕ :=
  (fbnetInit 10 demoBlocksH 1 demoSpeed (1/5) (3/5)).getD emptyNet

def netH2 : FBNet ℕ :=
  (fbnetInit 10 demoBlocksH 1 demoSpeed2 (1/5) (3/5)).getD emptyNet

/-- C1: evaluating a forward call of a successfully constructed network (22
searchable positions, 23-row table, batch size 4) yields no loss at all —
the pass dies with the `self._ops[22]` IndexError — so the claimed
composite-loss equation never holds for any forward call. -/
theorem fbnet_forward_returns_no_loss :
    (fbnetInit 10 demoBlocks 1 demoSpeed (1/5) (3/5)).map
        (fun net => (fbnetForward net gs0 mix0 4 0 [] 5).1)
      = some none := rfl

/-- Witness for C3 at the concrete catalog-shaped demonstration network
(stem, 22 candidate lists, trailing head module). -/
theorem fbnet_forward_last_position_index_error_witness :
    (fbnetForward netH gs0 mix0 4 0 [] 5).1 = none
    ∧ (fbnetForward netH gs0 mix0 4 0 [] 5).2.completed = 21
    ∧ (fbnetForward netH gs0 mix0 4 0 [] 5).2.opAttempts
        = (List.range 22).map (fun i => i + 1)
    ∧ netH.ops.length = 22 :=
  fbnet_forward_last_position_index_error gs0 mix0 4 0 [] 5 10 1 demoSpeed
    (1/5) (3/5) id (List.replicate 22 demoCands) [demoHead] netH
    (by
      intro b hb
      have hbeq := List.eq_of_mem_replicate hb
      subst hbeq
      exact ⟨[fun x => x + 1, fun x => x], rfl, by norm_num⟩)
    (by
      intro b hb
      have hbeq : b = demoHead := List.mem_singleton.mp hb
      subst hbeq
      exact ⟨fun x => x * 2, rfl⟩)
    rfl
    (by simp [demoSpeed])

/-- C2 counterexample: at the very first searchable position of a concrete
constructed network whose table rows are `[0], [1], ..., [22]`, the row
consumed is `[1]` — table row 1, not table row 0 as the claim states. -/
theorem fbnet_first_position_reads_row_one :
    (fbnetForward net2 gs0 mix0 4 0 [] 5).2.rowsUsed.head? = some [(1 : ℚ)]
    ∧ net2.speed.get? 0 = some [(0 : ℚ)]
    ∧ ¬ (some [(1 : ℚ)] = some [(0 : ℚ)]) := by
  refine ⟨rfl, rfl, by decide⟩

/-- Witness for the amended C2 at the concrete catalog-shaped network with
pairwise distinct table rows. -/
theorem fbnet_latency_rows_shifted_witness :
    (fbnetForward netH2 gs0 mix0 4 0 [] 5).2.rowsUsed
        = (List.range 22).map (fun i => demoSpeed2.getD (i + 1) [])
    ∧ (fbnetForward netH2 gs0 mix0 4 0 [] 5).2.rowAttempts
        = (List.range 22).map (fun i => i + 1)
    ∧ 0 ∉ (fbnetForward netH2 gs0 mix0 4 0 [] 5).2.rowAttempts :=
  fbnet_latency_rows_shifted gs0 mix0 4 0 [] 5 10 1 demoSpeed2
    (1/5) (3/5) id (List.replicate 22 demoCands) [demoHead] netH2
    (by
      intro b hb
      have hbeq := List.eq_of_mem_replicate hb
      subst hbeq
      exact ⟨[fun x => x + 1, fun x => x], rfl, by norm_num⟩)
    (by
      intro b hb
      have hbeq : b = demoHead := List.mem_singleton.mp hb
      subst hbeq
      exact ⟨fun x => x * 2, rfl⟩)
    rfl
    (by rw [demoSpeed2, List.length_map, List.length_range])

/-- Witness for C6: the demonstration catalog has exactly 22 list-valued
entries and construction succeeds with the expected theta vectors and
MixedOps. -/
theorem fbnetInit_requires_22_witness :
    fbnetInit 10 demoBlocks 1 demoSpeed (1/5) (3/5)
      = some ⟨10, 1/5, 3/5,
          (listEntries demoBlocks).map (fun l => List.replicate l.length 1),
          listEntries demoBlocks, demoBlocks, demoSpeed⟩ :=
  (fbnetInit_requires_22 10 demoBlocks 1 demoSpeed (1/5) (3/5)).2 rfl

/-! ### Trainer (`model.py`, lines 93-208)

`Trainer.__init__` takes the network, sets `theta_params = network.theta`,
and then runs the filter loop (lines 109-112)

  `mod_params = []`
  `for v in network.parameters():`
  `  if v not in theta_params: mod_params.append(v)`

before constructing `w_opt = SGD(mod_params, ...)` and
`t_opt = Adam(theta_params, ...)`.  `FBNet` stores `self.theta`,
`self._ops` and `self._blocks` in plain python lists, which `nn.Module`
does not register, so `network.parameters()` yields only the parameters of
the registered submodule `self.classifier` (`nn.Linear(1984, num_classes)`:
a weight of shape `(num_classes, 1984)` and a bias of shape
`(num_classes,)`).

The membership test `v not in theta_params` is python list containment:
for each element `x` it evaluates `v is x or bool(v == x)`.  On tensors
`==` is elementwise with broadcasting — a `RuntimeError` if the shapes do
not broadcast — and `bool()` of a tensor with more than one element also
raises `RuntimeError` ("ambiguous").  A parameter tensor is therefore
modelled as a `PTensor`: an object identity (`tid`, for `is`), a shape,
and its flattened entries.

`train_w`/`train_t` call `loss = self._mod(input, target, self.temp)` —
the network's forward pass — before anything else observable; on the
shipped network the embedded forward yields no loss (see the forward
section), and the exception propagates out of the step, so the optimizer
step, the temperature decay and the metric updates never execute.  A step
is modelled accordingly: consult the network's forward outcome at the
current temperature; on `none` raise, carrying the unchanged trainer
state; on `some loss` complete, decaying the temperature iff the step's
flag is set and appending the step to the ghost `log`.  (The optimizer
update to the stepped tensors is not modelled: on the shipped network no
step ever completes, and the parameter-partition facts are settled at
construction time.) -/

structure PTensor where
  tid : ℕ
  shape : List ℕ
  vals : List ℚ
  deriving DecidableEq

/-- Torch broadcasting of two shapes, given with their dimensions reversed
(i.e. aligned from the trailing dimension): each aligned pair of
dimensions must be equal or contain a 1; the result takes the maximum. -/
def bcastRev : List ℕ → List ℕ → Option (List ℕ)
  | [], s => some s
  | s, [] => some s
  | d1 :: s1, d2 :: s2 =>
    if d1 = d2 ∨ d1 = 1 ∨ d2 = 1 then
      (bcastRev s1 s2).map (fun s => max d1 d2 :: s)
    else none

/-- `bool(v == x)` for tensors: raises (`Except.error`) if the shapes do
not broadcast or the comparison result has more than one element;
otherwise the boolean comparing the single aligned entries. -/
def tensorEqBool (v x : PTensor) : Except Unit Bool :=
  match bcastRev v.shape.reverse x.shape.reverse with
  | none => Except.error ()  -- RuntimeError: shapes are not broadcastable
  | some r =>
    if r.prod = 1 then Except.ok (decide (v.vals.getD 0 0 = x.vals.getD 0 0))
    else Except.error ()  -- RuntimeError: bool of multi-element tensor

/-- Python list containment `v in lst`: `v is x or v == x` over the
elements in order, propagating the exceptions `==`/`bool` may raise. -/
def tensorIn (v : PTensor) : List PTensor → Except Unit Bool
  | [] => Except.ok false
  | x :: xs =>
    if v.tid = x.tid then Except.ok true
    else
      match tensorEqBool v x with
      | Except.error e => Except.error e
      | Except.ok true => Except.ok true
      | Except.ok false => tensorIn v xs

/-- The `mod_params` filter loop of `Trainer.__init__` (lines 109-112),
keeping the registered parameters that are not in `theta_params`. -/
def mkModParams (params thetaParams : List PTensor) :
    Except Unit (List PTensor) :=
  match params with
  | [] => Except.ok []
  | v :: vs =>
    match tensorIn v thetaParams with
    | Except.error e => Except.error e
    | Except.ok true => mkModParams vs thetaParams
    | Except.ok false => (mkModParams vs thetaParams).map (fun r => v :: r)

/-- The trainable tensors of an `FBNet`, by attribute: `classifierP` is
what `network.parameters()` yields (the registered classifier), `blockP`
are the convolution weights inside the plain-list attributes
`self._blocks`/`self._ops` (trainable but unregistered), `thetaP` is
`self.theta`. -/
structure NetParams where
  classifierP : List PTensor
  blockP : List PTensor
  thetaP : List PTensor

inductive StepKind where
  | w
  | t
  deriving DecidableEq

structure StepEv where
  kind : StepKind
  decayed : Bool
  deriving DecidableEq

/-- Trainer state after a successful `__init__`: `self.w = mod_params`,
`self.theta = theta_params`, the temperature and its decay factor, plus a
ghost log of the training steps that have completed. -/
structure Trainer where
  w : List PTensor
  theta : List PTensor
  temp : ℚ
  tdecay : ℚ
  log : List StepEv

/-- `Trainer.__init__(network, ..., init_temperature, temperature_decay)`:
builds `mod_params` with the tensor-membership filter — which may raise —
and only then the two optimizers over `mod_params` and `theta_params`. -/
def trainerInit (net : NetParams) (initTemperature temperatureDecay : ℚ) :
    Except Unit Trainer :=
  match mkModParams net.classifierP net.thetaP with
  | Except.error e => Except.error e
  | Except.ok mods =>
    Except.ok ⟨mods, net.thetaP, initTemperature, temperatureDecay, []⟩

/-- C7: the optimizer partition is never constructed.  For every network
whose first registered parameter is a matrix with last dimension `m ≠ 1`
(the classifier weight's 1984) and whose first theta vector has length
`n ∉ {1, m}` (the catalog's 8), the two being distinct objects,
`Trainer.__init__` raises in the `v not in theta_params` membership test —
tensor `==` between non-broadcastable shapes — before either optimizer
exists, so `train_w`/`train_t` are unreachable and no parameter split,
disjoint or covering, is ever built. -/
theorem trainer_init_membership_raises (net : NetParams) (t0 d : ℚ)
    (v x : PTensor) (cls θr : List PTensor) (vs : List ℕ) (m n : ℕ)
    (hc : net.classifierP = v :: cls) (hθ : net.thetaP = x :: θr)
    (hvshape : v.shape = vs ++ [m]) (hxshape : x.shape = [n])
    (hid : v.tid ≠ x.tid) (hm1 : m ≠ 1) (hn1 : n ≠ 1) (hmn : m ≠ n) :
    trainerInit net t0 d = Except.error () := by
  have hb : bcastRev (vs ++ [m]).reverse ([n] : List ℕ).reverse = none := by
    have hrev1 : (vs ++ [m]).reverse = m :: vs.reverse := by simp
    have hrev2 : ([n] : List ℕ).reverse = [n] := by simp
    rw [hrev1, hrev2]
    show bcastRev (m :: vs.reverse) (n :: []) = none
    simp only [bcastRev]
    rw [if_neg]
    push_neg
    exact ⟨hmn, hm1, hn1⟩
  have h1 : tensorEqBool v x = Except.error () := by
    unfold tensorEqBool
    rw [hvshape, hxshape, hb]
  have h2 : tensorIn v (x :: θr) = Except.error () := by
    unfold tensorIn
    rw [if_neg hid, h1]
  have h3 : mkModParams (v :: cls) (x :: θr) = Except.error () := by
    unfold mkModParams
    rw [h2]
  unfold trainerInit
  rw [hc, hθ, h3]

def vDemo : PTensor := ⟨0, [2, 3], [0, 1, 2, 3, 4, 5]⟩

def xDemo : PTensor := ⟨1, [4], [1, 1, 1, 1]⟩

/-- Concrete network parameters with the real shape pattern: one matrix
classifier parameter, one block parameter, one theta vector. -/
def netShapes : NetParams := ⟨[vDemo], [⟨2, [1], [7]⟩], [xDemo]⟩

/-- Witness for C7: on the concrete shapes, construction raises. -/
theorem trainer_init_membership_raises_witness :
    trainerInit netShapes 5 1 = Except.error () :=
  trainer_init_membership_raises netShapes 5 1 vDemo xDemo [] [] [2] 3 4
    rfl rfl rfl rfl (by decide) (by decide) (by decide) (by decide)

/-- One training step (`Trainer._step` invoking `train_w`/`train_t` with
the given decay flag): run the forward pass at the current temperature;
if it raises, propagate with the trainer state unchanged; otherwise the
step completes, decaying the temperature iff the flag is set and recording
the step in the ghost log. -/
def trainStep {β : Type} (fwd : β → ℚ → Option ℚ) (kind : StepKind)
    (decay : Bool) (tr : Trainer) (b : β) : Except Trainer Trainer :=
  match fwd b tr.temp with
  | none => Except.error tr
  | some _loss =>
    Except.ok { tr with
      temp := if decay then tr.temp * tr.tdecay else tr.temp,
      log := tr.log ++ [⟨kind, decay⟩] }

/-- `for step, (input, target) in enumerate(ds): self._step(...)`,
stopping at the first raised exception. -/
def runSteps {β : Type} (step : Trainer → β → Except Trainer Trainer) :
    Trainer → List β → Except Trainer Trainer
  | tr, [] => Except.ok tr
  | tr, b :: bs =>
    match step tr b with
    | Except.error e => Except.error e
    | Except.ok tr2 => runSteps step tr2 bs

/-- `for epoch in range(k): ...`, stopping at the first raised exception. -/
def runEpochs (epoch : Trainer → Except Trainer Trainer) :
    ℕ → Trainer → Except Trainer Trainer
  | 0, tr => Except.ok tr
  | Nat.succ k, tr =>
    match epoch tr with
    | Except.error e => Except.error e
    | Except.ok tr2 => runEpochs epoch k tr2

/-- `Trainer.search(train_w_ds, train_t_ds, total_epoch, start_w_epoch, ...)`:
asserts `start_w_epoch >= 1` (`AssertionError` otherwise), then runs
`start_w_epoch` warm-up epochs of `train_w(x, y, False)` over the weight
stream, then `total_epoch` epochs, each a full `train_t(x, y, True)` pass
over the theta stream followed by a full `train_w(x, y, False)` pass.
`fwdW`/`fwdT` give the network's forward outcome on a weight/theta batch
at a temperature. -/
def trainerSearch {β γ : Type} (fwdW : β → ℚ → Option ℚ)
    (fwdT : γ → ℚ → Option ℚ) (trainWDs : List β) (trainTDs : List γ)
    (totalEpoch startWEpoch : ℕ) (tr : Trainer) : Except Trainer Trainer :=
  if 1 ≤ startWEpoch then
    match runEpochs
        (fun s => runSteps (trainStep fwdW StepKind.w false) s trainWDs)
        startWEpoch tr with
    | Except.error e => Except.error e
    | Except.ok tr1 =>
      runEpochs
        (fun s =>
          match runSteps (trainStep fwdT StepKind.t true) s trainTDs with
          | Except.error e => Except.error e
          | Except.ok s2 => runSteps (trainStep fwdW StepKind.w false) s2 trainWDs)
        totalEpoch tr1
  else Except.error tr  -- `assert start_w_epoch >= 1, "Start to train w"`

/-- C8: the claimed two-phase schedule never executes on the shipped
network.  Whenever the forward pass raises on the first weight batch at
the initial temperature — which it always does for a constructed `FBNet`,
whose forward never returns a loss (see the forward section) — `search`
propagates the exception out of the very first warm-up step: the returned
error state still has the initial temperature (the decay factor is never
applied, in particular not once per theta step) and an empty step log (no
warm-up or alternating epoch, and no training step, ever completes). -/
theorem trainer_search_raises_at_first_step {β γ : Type}
    (fwdW : β → ℚ → Option ℚ) (fwdT : γ → ℚ → Option ℚ)
    (b : β) (bs : List β) (trainTDs : List γ)
    (totalEpoch startWEpoch : ℕ) (wp tp : List PTensor) (t0 d : ℚ)
    (hW : 1 ≤ startWEpoch) (hfwd : fwdW b t0 = none) :
    trainerSearch fwdW fwdT (b :: bs) trainTDs totalEpoch startWEpoch
        ⟨wp, tp, t0, d, []⟩
      = Except.error ⟨wp, tp, t0, d, []⟩ := by
  have hstep : trainStep fwdW StepKind.w false ⟨wp, tp, t0, d, []⟩ b
      = Except.error ⟨wp, tp, t0, d, []⟩ := by
    unfold trainStep
    rw [show (⟨wp, tp, t0, d, []⟩ : Trainer).temp = t0 from rfl, hfwd]
  have hrun : runSteps (trainStep fwdW StepKind.w false) ⟨wp, tp, t0, d, []⟩
      (b :: bs) = Except.error ⟨wp, tp, t0, d, []⟩ := by
    unfold runSteps
    rw [hstep]
  obtain ⟨k, rfl⟩ : ∃ k, startWEpoch = k + 1 := ⟨startWEpoch - 1, by omega⟩
  have hepochs : runEpochs
      (fun s => runSteps (trainStep fwdW StepKind.w false) s (b :: bs))
      (k + 1) ⟨wp, tp, t0, d, []⟩ = Except.error ⟨wp, tp, t0, d, []⟩ := by
    unfold runEpochs
    rw [hrun]
  unfold trainerSearch
  rw [if_pos hW, hepochs]

/-- The embedded network's forward outcome on the concrete catalog-shaped
network `netH`: the pass always dies in the `self._ops[22]` lookup and
returns no loss. -/
def fwdReal : ℕ → ℚ → Option ℚ :=
  fun b temp => (fbnetForward netH gs0 mix0 4 b [] temp).1

/-- Witness for C8: with the embedded network's own forward, the default
epoch counts (90, 10) and the default temperature schedule (5.0, 0.965),
`search` raises at its first step with the temperature untouched and no
step completed. -/
theorem trainer_search_raises_at_first_step_witness :
    trainerSearch fwdReal fwdReal ([0] : List ℕ) ([0] : List ℕ) 90 10
        ⟨[], [xDemo], 5, 193/200, []⟩
      = Except.error ⟨[], [xDemo], 5, 193/200, []⟩ :=
  trainer_search_raises_at_first_step fwdReal fwdReal 0 [] [0] 90 10
    [] [xDemo] 5 (193/200) (by norm_num) rfl

end NAS
